import Mathlib

/-!
Verification of the Account & Scoring Integrity core of the disaquiz
application: the quiz scorer (QuizInterface.handleSubmitQuiz and
ResultsView.fetchResults), the leaderboard reducer
(Leaderboard.fetchLeaderboard) and the login guard (SQL functions
is_user_blocked and record_login_attempt).

Conventions of the shallow embedding:
* TypeScript/JS numbers used for scores are modelled as rationals (ℚ);
  integer counters as ℕ/ℤ.
* Timestamps (ISO strings compared through new Date(...).getTime(),
  SQL timestamptz) are modelled as integers (ℤ), their chronological
  values; the SQL interval of 24 hours is 86400 of those units.
* `null`/`undefined`/SQL NULL is modelled with `Option`.
* A JS stable `Array.prototype.sort` with a comparator `cmp` that is
  induced by a lexicographic key is modelled by `List.insertionSort`
  over the relation `cmp a b ≤ 0`: for such a total preorder the stable
  sorted permutation is unique, and `insertionSort` is stable.
-/

namespace Disaquiz

/-- The option_enum type of the database: ('A','B','C','D'),
src/src/types/database.ts `OptionEnum`. -/
inductive OptionEnum where
  | A
  | B
  | C
  | D
deriving DecidableEq

/-- A user_answers row (src/src/types/database.ts `UserAnswer`);
`selected_option` is nullable (`option_enum` without NOT NULL in the
schema, `OptionEnum | null` in the TS type). Text ids are kept as
strings; timestamps irrelevant to the claims are omitted. -/
structure UserAnswer where
  user_id : String
  question_id : String
  selected_option : Option OptionEnum
  is_submitted : Bool
deriving DecidableEq

/-- A questions row (src/src/types/database.ts `Question`);
`correct_option` is NOT NULL (`correct_option option_enum NOT NULL`). -/
structure Question where
  id : String
  question_no : Nat
  paper_name : String
  question : String
  option_a : String
  option_b : String
  option_c : String
  option_d : String
  correct_option : OptionEnum
deriving DecidableEq

/-- The type `QuestionWithAnswer`: a question together with the optional
user answer joined onto it (src/src/types/database.ts). -/
structure QuestionWithAnswer extends Question where
  user_answer : Option UserAnswer
deriving DecidableEq

/-- The JS expression `q.user_answer?.selected_option`: `undefined`
when there is no answer row, otherwise the (possibly null) selected
option. Both `undefined` and `null` collapse to `none`. -/
def selectedOf (q : QuestionWithAnswer) : Option OptionEnum :=
  q.user_answer.bind UserAnswer.selected_option

/-- Result record of the score computation (the four values computed
at submit time and by the results view). -/
structure ScoreResult where
  total : Nat
  attempted : Nat
  correct : Nat
  percentage : ℚ
deriving DecidableEq

/-- Score computation of QuizInterface.handleSubmitQuiz
(src/src/components/quiz/QuizInterface.tsx lines 126-132):
totalQuestions = questions.length;
totalAttempted = questions.filter(q => q.user_answer?.selected_option).length
(every OptionEnum value is truthy, so the filter keeps exactly the
questions whose joined answer has a non-null selected option);
totalCorrect = questions.filter(q =>
  q.user_answer?.selected_option === q.correct_option).length;
scorePercentage = totalQuestions > 0
  ? (totalCorrect / totalQuestions) * 100 : 0. -/
def computeScoreQuiz (questions : List QuestionWithAnswer) : ScoreResult :=
  let totalQuestions := questions.length
  let totalAttempted :=
    (questions.filter (fun q => (selectedOf q).isSome)).length
  let totalCorrect :=
    (questions.filter (fun q => decide (selectedOf q = some q.correct_option))).length
  let scorePercentage : ℚ :=
    if totalQuestions > 0 then ((totalCorrect : ℚ) / (totalQuestions : ℚ)) * 100 else 0
  ⟨totalQuestions, totalAttempted, totalCorrect, scorePercentage⟩

/-- Score recomputation of ResultsView.fetchResults
(src/unnamed/part_000 lines 63-69), translated separately from that
source site; textually the same computation as the one in
QuizInterface.handleSubmitQuiz. -/
def computeScoreResults (questionsWithAnswers : List QuestionWithAnswer) : ScoreResult :=
  let totalQuestions := questionsWithAnswers.length
  let totalAttempted :=
    (questionsWithAnswers.filter (fun q => (selectedOf q).isSome)).length
  let totalCorrect :=
    (questionsWithAnswers.filter (fun q => decide (selectedOf q = some q.correct_option))).length
  let scorePercentage : ℚ :=
    if totalQuestions > 0 then ((totalCorrect : ℚ) / (totalQuestions : ℚ)) * 100 else 0
  ⟨totalQuestions, totalAttempted, totalCorrect, scorePercentage⟩

/-- A three-question demo set: first answered correctly (A/A), second
unanswered (no answer row), third answered wrongly (selected D,
correct C). -/
def demoQuestions : List QuestionWithAnswer :=
  [⟨⟨"q1", 1, "P", "?", "a", "b", "c", "d", OptionEnum.A⟩,
     some ⟨"u1", "q1", some OptionEnum.A, false⟩⟩,
   ⟨⟨"q2", 2, "P", "?", "a", "b", "c", "d", OptionEnum.B⟩, none⟩,
   ⟨⟨"q3", 3, "P", "?", "a", "b", "c", "d", OptionEnum.C⟩,
     some ⟨"u1", "q3", some OptionEnum.D, false⟩⟩]

/-- A leaderboard row (table public.leaderboard of migration
20250716170005): one row per quiz submission. The generated id and
created_at play no role in the claims; `completed_at` is the
chronological value of the timestamp. -/
structure LeaderboardEntry where
  user_id : String
  paper_name : String
  score_percentage : ℚ
  total_questions : Nat
  total_correct : Nat
  total_attempted : Nat
  completed_at : ℤ
deriving DecidableEq

/-- The leaderboard write of QuizInterface.handleSubmitQuiz
(src/src/components/quiz/QuizInterface.tsx lines 126-146): compute the
score over the paper's question set and `insert` one new row (INSERT,
not upsert; the id is freshly generated and completed_at defaults to
now()). A SQL INSERT of a fresh row is modelled as appending to the
table's list of rows; the answer-marking update of step (1) touches
user_answers rows only, never the leaderboard table. -/
def handleSubmitQuizInsert (leaderboard : List LeaderboardEntry)
    (questions : List QuestionWithAnswer) (userId paperName : String)
    (now : ℤ) : List LeaderboardEntry :=
  let s := computeScoreQuiz questions
  leaderboard ++ [⟨userId, paperName, s.percentage, s.total, s.correct, s.attempted, now⟩]

/-- Lookup (`Map.get`) of a JS insertion-ordered map modelled as an association
list. -/
def mapGet (m : List (String × LeaderboardEntry)) (k : String) :
    Option LeaderboardEntry :=
  (m.find? (fun p => decide (p.1 = k))).map Prod.snd

/-- Update (`Map.set`) of a JS insertion-ordered map: an existing key keeps its
position and gets the new value; a new key is appended. -/
def mapSet (m : List (String × LeaderboardEntry)) (k : String)
    (v : LeaderboardEntry) : List (String × LeaderboardEntry) :=
  match m with
  | [] => [(k, v)]
  | p :: rest => if p.1 = k then (k, v) :: rest else p :: mapSet rest k v

/-- One iteration of the dedup loop of Leaderboard.fetchLeaderboard
(src/src/components/results/Leaderboard.tsx lines 45-50): keep the
incoming entry iff there is no entry for its user yet or the incoming
one completed strictly later. -/
def dedupStep (m : List (String × LeaderboardEntry)) (e : LeaderboardEntry) :
    List (String × LeaderboardEntry) :=
  match mapGet m e.user_id with
  | none => mapSet m e.user_id e
  | some existingEntry =>
      if existingEntry.completed_at < e.completed_at then mapSet m e.user_id e else m

/-- The userLatestScores map after the forEach loop of
fetchLeaderboard. -/
def userLatestScores (entries : List LeaderboardEntry) :
    List (String × LeaderboardEntry) :=
  entries.foldl dedupStep []

/-- The sort comparator of fetchLeaderboard (lines 54-59) as the
relation comparator(a,b) <= 0: when the scores differ the comparator
returns b.score_percentage - a.score_percentage, otherwise the
difference of the completed_at chronological values. -/
def lbBefore (a b : LeaderboardEntry) : Prop :=
  if b.score_percentage ≠ a.score_percentage then
    b.score_percentage - a.score_percentage ≤ 0
  else
    a.completed_at - b.completed_at ≤ 0

instance : DecidableRel lbBefore := fun a b => by
  unfold lbBefore
  infer_instance

instance : IsTotal LeaderboardEntry lbBefore where
  total a b := by
    unfold lbBefore
    by_cases h : a.score_percentage = b.score_percentage
    · rw [if_neg (not_ne_iff.mpr h.symm), if_neg (not_ne_iff.mpr h)]
      rcases le_total a.completed_at b.completed_at with h' | h'
      · left; omega
      · right; omega
    · have hba : b.score_percentage ≠ a.score_percentage := fun e => h e.symm
      rw [if_pos hba, if_pos h]
      rcases le_total a.score_percentage b.score_percentage with h' | h'
      · right; linarith
      · left; linarith

instance : IsTrans LeaderboardEntry lbBefore where
  trans a b c hab hbc := by
    unfold lbBefore at hab hbc ⊢
    by_cases h1 : b.score_percentage = a.score_percentage
    · rw [if_neg (not_ne_iff.mpr h1)] at hab
      by_cases h2 : c.score_percentage = b.score_percentage
      · rw [if_neg (not_ne_iff.mpr h2)] at hbc
        rw [if_neg (not_ne_iff.mpr (h2.trans h1))]
        omega
      · rw [if_pos h2] at hbc
        have hcb : c.score_percentage < b.score_percentage :=
          lt_of_le_of_ne (by linarith) h2
        have hca : c.score_percentage < a.score_percentage := h1 ▸ hcb
        rw [if_pos (ne_of_lt hca)]
        linarith
    · rw [if_pos h1] at hab
      have hba : b.score_percentage < a.score_percentage :=
        lt_of_le_of_ne (by linarith) h1
      by_cases h2 : c.score_percentage = b.score_percentage
      · rw [if_neg (not_ne_iff.mpr h2)] at hbc
        have hca : c.score_percentage < a.score_percentage := h2 ▸ hba
        rw [if_pos (ne_of_lt hca)]
        linarith
      · rw [if_pos h2] at hbc
        have hcb : c.score_percentage < b.score_percentage :=
          lt_of_le_of_ne (by linarith) h2
        have hca : c.score_percentage < a.score_percentage := hcb.trans hba
        rw [if_pos (ne_of_lt hca)]
        linarith

/-- The supabase query ordering of fetchLeaderboard (line 33):
order by completed_at descending. -/
def completedDesc (a b : LeaderboardEntry) : Prop :=
  b.completed_at ≤ a.completed_at

instance : DecidableRel completedDesc := fun a b => by
  unfold completedDesc
  infer_instance

instance : IsTotal LeaderboardEntry completedDesc where
  total a b := by
    unfold completedDesc
    omega

instance : IsTrans LeaderboardEntry completedDesc where
  trans a b c hab hbc := by
    unfold completedDesc at *
    omega

/-- The whole pure pipeline of Leaderboard.fetchLeaderboard
(src/src/components/results/Leaderboard.tsx lines 22-62): the store
returns the rows with paper_name = paperName ordered by completed_at
descending; the forEach keeps the latest row per user; Array.from
yields the map's values in insertion order; then the stable sort by
the score/time comparator and slice(0, 20). The profile join only adds
a display name and is dropped. -/
def fetchLeaderboard (entries : List LeaderboardEntry) (paperName : String) :
    List LeaderboardEntry :=
  let fetched := List.insertionSort completedDesc
    (entries.filter (fun e => decide (e.paper_name = paperName)))
  let filteredLeaderboard :=
    List.insertionSort lbBefore ((userLatestScores fetched).map Prod.snd)
  filteredLeaderboard.take 20

/-- A login_attempts row for one email (table public.login_attempts of
migration 20250716170005); id, created_at and updated_at play no role
in the claims. A missing row is `none` at the call sites. -/
structure LoginAttempt where
  failed_attempts : ℤ
  last_attempt_at : ℤ
  blocked_until : Option ℤ
deriving DecidableEq

/-- The 24 hour SQL interval, in seconds. -/
def twentyFourHours : ℤ := 24 * 60 * 60

/-- SQL function public.is_user_blocked(user_email) of migration
20250716170005 lines 32-57, as a function of the login_attempts row
for that email (none when no row exists) and now(). The function only
SELECTs: it writes nothing. IF NOT FOUND then false; if blocked_until
IS NOT NULL AND blocked_until > now() then true; else false. -/
def is_user_blocked (attempt_record : Option LoginAttempt) (now : ℤ) : Bool :=
  match attempt_record with
  | none => false
  | some r =>
    match r.blocked_until with
    | none => false
    | some b => decide (b > now)

/-- SQL function public.record_login_attempt(user_email, is_successful)
of migration 20250716170005 lines 60-109, as a state transformer of
the login_attempts row for that email. SELECT INTO leaves
current_attempts NULL when no row exists (hence the COALESCE). On
success the upsert writes failed_attempts = 0, last_attempt_at =
now(), blocked_until = NULL; on failure it writes the incremented
count and blocks for 24 hours from now() when that count reaches
max_attempts = 5. Both the VALUES and the DO UPDATE branch of the
upsert write the same three fields, so the result is one row either
way. -/
def record_login_attempt (st : Option LoginAttempt) (is_successful : Bool)
    (now : ℤ) : LoginAttempt :=
  let current_attempts : Option ℤ := st.map LoginAttempt.failed_attempts
  if is_successful then
    ⟨0, now, none⟩
  else
    let ca := current_attempts.getD 0 + 1
    ⟨ca, now, if ca ≥ 5 then some (now + twentyFourHours) else none⟩

/-- The value `COALESCE(failed_attempts, 0)` of the state: the current counter,
0 when no row exists. -/
def failedOf (st : Option LoginAttempt) : ℤ :=
  (st.map LoginAttempt.failed_attempts).getD 0

/-- A sequence of failed recordAttempt calls at the given times, with
no intervening success. -/
def runFailures (st : Option LoginAttempt) (ts : List ℤ) : Option LoginAttempt :=
  ts.foldl (fun s t => some (record_login_attempt s false t)) st

/-- The SELECT of record_login_attempt (migration lines 71-73) taken
as one atomic store action: the value of failed_attempts visible to
this transaction, NULL when no row exists. -/
def raceRead (st : Option LoginAttempt) : Option ℤ :=
  st.map LoginAttempt.failed_attempts

/-- The failure-branch upsert of record_login_attempt (migration lines
87-107) taken as the second atomic store action: it writes
current_attempts := COALESCE(v, 0) + 1 computed from the previously
SELECTed value v, also in the ON CONFLICT DO UPDATE branch, which
re-uses the stale PL/pgSQL variable instead of the row's current
value. -/
def raceWriteFailed (v : Option ℤ) (now : ℤ) : LoginAttempt :=
  let current_attempts := v.getD 0 + 1
  ⟨current_attempts, now,
    if current_attempts ≥ 5 then some (now + twentyFourHours) else none⟩

lemma computeScoreQuiz_percentage_eq (qs : List QuestionWithAnswer) :
    (computeScoreQuiz qs).percentage =
      if 0 < qs.length then
        (((computeScoreQuiz qs).correct : ℚ) / (qs.length : ℚ)) * 100
      else 0 := rfl

lemma correct_imp_attempted (q : QuestionWithAnswer) :
    decide (selectedOf q = some q.correct_option) = true →
    (selectedOf q).isSome = true := by
  intro h
  rw [of_decide_eq_true h]
  rfl

/-- Claim C1: for every question set, the submit-time score computation
returns total = the number of questions, attempted = the count of
questions whose joined answer has a non-null selected option, correct =
the count of questions whose selected option equals the question's
correct option (an absent answer never counts as correct), and
percentage = (correct / total) * 100 when total > 0 and 0 when
total = 0. -/
theorem computeScore_spec (qs : List QuestionWithAnswer) :
    (computeScoreQuiz qs).total = qs.length ∧
    (computeScoreQuiz qs).attempted =
      qs.countP (fun q => (selectedOf q).isSome) ∧
    (computeScoreQuiz qs).correct =
      qs.countP (fun q => decide (selectedOf q = some q.correct_option)) ∧
    (∀ q ∈ qs, q.user_answer = none → selectedOf q ≠ some q.correct_option) ∧
    (0 < qs.length →
      (computeScoreQuiz qs).percentage =
        (((computeScoreQuiz qs).correct : ℚ) / (qs.length : ℚ)) * 100) ∧
    (qs.length = 0 → (computeScoreQuiz qs).percentage = 0) := by
  refine ⟨rfl, (List.countP_eq_length_filter _ _).symm,
    (List.countP_eq_length_filter _ _).symm, ?_, ?_, ?_⟩
  · intro q _ h
    simp [selectedOf, h]
  · intro h
    rw [computeScoreQuiz_percentage_eq, if_pos h]
  · intro h
    rw [computeScoreQuiz_percentage_eq, if_neg (by omega)]

/-- Witness for C1 at the three-question demo set: the percentage
equals correct / total * 100 there (total = 3 > 0). -/
theorem computeScore_spec_witness :
    (computeScoreQuiz demoQuestions).percentage =
      (((computeScoreQuiz demoQuestions).correct : ℚ) /
        ((computeScoreQuiz demoQuestions).total : ℚ)) * 100 := by
  have h := computeScore_spec demoQuestions
  have hp := h.2.2.2.2.1 (by decide)
  rw [h.1]
  exact hp

/-- Counterexample part for claim C6: the claim asserts the existence
of a question set with correct > attempted; there is none, because a
correct question (selected option = the NOT NULL correct option)
always has a non-null selected option and hence counts as attempted. -/
theorem no_correct_gt_attempted :
    ¬ ∃ qs : List QuestionWithAnswer,
      (computeScoreQuiz qs).attempted < (computeScoreQuiz qs).correct := by
  rintro ⟨qs, h⟩
  have ha : (computeScoreQuiz qs).attempted =
      qs.countP (fun q => (selectedOf q).isSome) :=
    (List.countP_eq_length_filter _ _).symm
  have hc : (computeScoreQuiz qs).correct =
      qs.countP (fun q => decide (selectedOf q = some q.correct_option)) :=
    (List.countP_eq_length_filter _ _).symm
  have hmono : qs.countP (fun q => decide (selectedOf q = some q.correct_option)) ≤
      qs.countP (fun q => (selectedOf q).isSome) :=
    List.countP_mono_left (fun q _ => correct_imp_attempted q)
  omega

/-- Claim C6 (amended): for all question sets, attempted <= total,
correct <= total, percentage = 0 when total = 0, and additionally
correct <= attempted always holds (the unamended claim wrongly denied
the latter). -/
theorem computeScore_bounds (qs : List QuestionWithAnswer) :
    (computeScoreQuiz qs).attempted ≤ (computeScoreQuiz qs).total ∧
    (computeScoreQuiz qs).correct ≤ (computeScoreQuiz qs).total ∧
    (computeScoreQuiz qs).correct ≤ (computeScoreQuiz qs).attempted ∧
    ((computeScoreQuiz qs).total = 0 → (computeScoreQuiz qs).percentage = 0) := by
  have ha : (computeScoreQuiz qs).attempted =
      qs.countP (fun q => (selectedOf q).isSome) :=
    (List.countP_eq_length_filter _ _).symm
  have hc : (computeScoreQuiz qs).correct =
      qs.countP (fun q => decide (selectedOf q = some q.correct_option)) :=
    (List.countP_eq_length_filter _ _).symm
  refine ⟨List.length_filter_le _ _, List.length_filter_le _ _, ?_, ?_⟩
  · have hmono := List.countP_mono_left
      (l := qs) (fun q _ => correct_imp_attempted q)
    omega
  · intro h
    rw [computeScoreQuiz_percentage_eq, if_neg]
    have : qs.length = 0 := h
    omega

/-- Witness for the amended C6 at the empty question set: total = 0
and the percentage is 0 (the division-by-zero guard). -/
theorem computeScore_bounds_witness :
    (computeScoreQuiz []).percentage = 0 :=
  (computeScore_bounds []).2.2.2 rfl

/-- Claim C10: the score computation of QuizInterface.handleSubmitQuiz
and the recomputation of ResultsView.fetchResults are extensionally
equal: identical totalQuestions, totalAttempted, totalCorrect and
scorePercentage on every question set with optional user answers. -/
theorem computeScore_refinement (qs : List QuestionWithAnswer) :
    computeScoreQuiz qs = computeScoreResults qs := rfl

/-- Claim C5: a successful recordAttempt leaves the row with
failed_attempts = 0 and blocked_until = NULL, whatever the prior state
(including no row at all). -/
theorem record_success_resets (st : Option LoginAttempt) (now : ℤ) :
    (record_login_attempt st true now).failed_attempts = 0 ∧
    (record_login_attempt st true now).blocked_until = none :=
  ⟨rfl, rfl⟩

/-- Claim C4: is_user_blocked returns true iff a login_attempts row
exists for the email, its blocked_until is non-null, and blocked_until
> now. Absence of a row means not blocked. The function is modelled as
a pure function of the row: the SQL body only SELECTs, so the call has
no effect on the store. -/
theorem is_user_blocked_iff (st : Option LoginAttempt) (now : ℤ) :
    is_user_blocked st now = true ↔
      ∃ r b, st = some r ∧ r.blocked_until = some b ∧ now < b := by
  cases st with
  | none => simp [is_user_blocked]
  | some r =>
    cases hb : r.blocked_until with
    | none => simp [is_user_blocked, hb]
    | some b => simp [is_user_blocked, hb]

/-- Witness for C4: a row blocked until 100 is blocked at time 50. -/
theorem is_user_blocked_iff_witness :
    is_user_blocked (some ⟨5, 0, some 100⟩) 50 = true :=
  (is_user_blocked_iff (some ⟨5, 0, some 100⟩) 50).mpr
    ⟨⟨5, 0, some 100⟩, 100, rfl, rfl, by norm_num⟩

lemma record_failure_step (st : Option LoginAttempt) (t : ℤ) :
    record_login_attempt st false t =
      ⟨failedOf st + 1, t,
        if 5 ≤ failedOf st + 1 then some (t + twentyFourHours) else none⟩ := by
  simp [record_login_attempt, failedOf, ge_iff_le]

lemma failedOf_record_failure (st : Option LoginAttempt) (t : ℤ) :
    failedOf (some (record_login_attempt st false t)) = failedOf st + 1 := by
  rw [record_failure_step]
  rfl

/-- Claim C2: along any sequence of failed recordAttempt calls with no
intervening success, from any starting state, the counter increases by
exactly 1 per call (so after the calls at times ts ++ [t] it is the
initial COALESCEd count plus their number), blocked_until is non-null
exactly when the running count has reached 5 — hence it first becomes
non-null at the call where the count first reaches 5 — and on every
such call it is set 24 hours forward from that call's time.
Instantiating the ts/t split at every prefix gives the per-call
statement. -/
theorem record_failures_spec (st : Option LoginAttempt) (ts : List ℤ) (t : ℤ) :
    ∃ r, runFailures st (ts ++ [t]) = some r ∧
      r.failed_attempts = failedOf st + ts.length + 1 ∧
      r.last_attempt_at = t ∧
      (r.blocked_until ≠ none ↔ 5 ≤ failedOf st + ts.length + 1) ∧
      (5 ≤ failedOf st + ts.length + 1 →
        r.blocked_until = some (t + twentyFourHours)) ∧
      (failedOf st + ts.length + 1 < 5 → r.blocked_until = none) := by
  induction ts generalizing st with
  | nil =>
    refine ⟨record_login_attempt st false t, rfl, ?_, ?_, ?_, ?_, ?_⟩
    all_goals rw [record_failure_step st t]
    all_goals simp only [List.length_nil, Nat.cast_zero, add_zero]
    · by_cases h : 5 ≤ failedOf st + 1
      · rw [if_pos h]
        simp [h]
      · rw [if_neg h]
        simp [h]
    · intro h
      rw [if_pos h]
    · intro h
      rw [if_neg (by omega)]
  | cons x ts ih =>
    obtain ⟨r, h1, h2, h3, h4, h5, h6⟩ :=
      ih (some (record_login_attempt st false x))
    rw [failedOf_record_failure] at h2 h4 h5 h6
    have harith : failedOf st + 1 + (ts.length : ℤ) + 1 =
        failedOf st + ((x :: ts).length : ℤ) + 1 := by
      simp only [List.length_cons]
      push_cast
      ring
    rw [harith] at h2 h4 h5 h6
    exact ⟨r, h1, h2, h3, h4, h5, h6⟩

/-- Witness for C2: from no row, five failures at times 10,20,30,40,50
end with failed_attempts = 5 and a block until 50 + 24h. -/
theorem record_failures_spec_witness :
    ∃ r, runFailures none ([10, 20, 30, 40] ++ [50]) = some r ∧
      r.failed_attempts = 5 ∧
      r.blocked_until = some (50 + twentyFourHours) := by
  obtain ⟨r, h1, h2, h3, h4, h5, h6⟩ :=
    record_failures_spec none [10, 20, 30, 40] 50
  refine ⟨r, h1, ?_, h5 (by norm_num [failedOf])⟩
  rw [h2]
  norm_num [failedOf]

/-- Claim C9 (refuting the atomicity): record_login_attempt's body is
the composition of two store actions — the SELECT of failed_attempts
(raceRead) and an upsert that writes a count precomputed from that
SELECT (raceWriteFailed); the ON CONFLICT DO UPDATE branch reuses the
stale PL/pgSQL variable instead of incrementing the row's current
value. In the read-committed interleaving where both concurrent failed
calls SELECT before either upsert commits, the later write stores the
stale count: from failed_attempts = 3, the interleaved outcome is 4
with no block, while the two calls executed sequentially yield 5 and
set the 24h block. The counter under-increments and the block is
skipped. -/
theorem record_attempt_race_under_increment :
    (∀ st t, record_login_attempt st false t =
      raceWriteFailed (raceRead st) t) ∧
    raceWriteFailed (raceRead (some ⟨3, 0, none⟩)) 2 =
      ⟨4, 2, none⟩ ∧
    runFailures (some ⟨3, 0, none⟩) [1, 2] =
      some ⟨5, 2, some (2 + twentyFourHours)⟩ :=
  ⟨fun _ _ => rfl, by decide, by decide⟩

/-- Claim C8: submitting a quiz appends exactly one new leaderboard
row and leaves every pre-existing row unchanged in place; the count of
rows for the submitting user and paper grows by one, so retakes
accumulate rows instead of overwriting. -/
theorem submit_appends_immutable (lb : List LeaderboardEntry)
    (qs : List QuestionWithAnswer) (uid paper : String) (now : ℤ) :
    (handleSubmitQuizInsert lb qs uid paper now).length = lb.length + 1 ∧
    (handleSubmitQuizInsert lb qs uid paper now).take lb.length = lb ∧
    (∀ e ∈ lb, e ∈ handleSubmitQuizInsert lb qs uid paper now) ∧
    (handleSubmitQuizInsert lb qs uid paper now).countP
        (fun e => decide (e.user_id = uid ∧ e.paper_name = paper)) =
      lb.countP (fun e => decide (e.user_id = uid ∧ e.paper_name = paper)) + 1 := by
  unfold handleSubmitQuizInsert
  refine ⟨by simp, List.take_left lb _, fun e he => by simp [he], ?_⟩
  rw [List.countP_append]
  simp

/-- Witness for C8: two submissions by the same user for the same
paper yield two rows for that user and paper. -/
theorem submit_appends_immutable_witness :
    (handleSubmitQuizInsert
        (handleSubmitQuizInsert [] demoQuestions "u1" "P" 1)
        demoQuestions "u1" "P" 2).countP
      (fun e => decide (e.user_id = "u1" ∧ e.paper_name = "P")) = 2 := by
  have h1 := submit_appends_immutable [] demoQuestions "u1" "P" 1
  have h2 := submit_appends_immutable
    (handleSubmitQuizInsert [] demoQuestions "u1" "P" 1) demoQuestions "u1" "P" 2
  rw [h2.2.2.2, h1.2.2.2]
  rfl

lemma mem_mapSet {m : List (String × LeaderboardEntry)} {k : String}
    {v : LeaderboardEntry} {p : String × LeaderboardEntry}
    (h : p ∈ mapSet m k v) : p = (k, v) ∨ p ∈ m := by
  induction m with
  | nil => simpa [mapSet] using h
  | cons q rest ih =>
    simp only [mapSet] at h
    by_cases hq : q.1 = k
    · rw [if_pos hq] at h
      rcases List.mem_cons.mp h with h | h
      · exact Or.inl h
      · exact Or.inr (List.mem_cons_of_mem q h)
    · rw [if_neg hq] at h
      rcases List.mem_cons.mp h with h | h
      · exact Or.inr (h ▸ List.mem_cons_self q rest)
      · rcases ih h with h | h
        · exact Or.inl h
        · exact Or.inr (List.mem_cons_of_mem q h)

lemma keys_mapSet_subset {m : List (String × LeaderboardEntry)} {k x : String}
    {v : LeaderboardEntry}
    (h : x ∈ (mapSet m k v).map Prod.fst) :
    x ∈ m.map Prod.fst ∨ x = k := by
  rcases List.mem_map.mp h with ⟨p, hp, hx⟩
  rcases mem_mapSet hp with h' | h'
  · right
    rw [← hx, h']
  · left
    exact List.mem_map.mpr ⟨p, h', hx⟩

lemma nodup_keys_mapSet {m : List (String × LeaderboardEntry)} {k : String}
    {v : LeaderboardEntry}
    (h : (m.map Prod.fst).Nodup) : ((mapSet m k v).map Prod.fst).Nodup := by
  induction m with
  | nil => simp [mapSet]
  | cons q rest ih =>
    simp only [List.map_cons, List.nodup_cons] at h
    simp only [mapSet]
    by_cases hq : q.1 = k
    · rw [if_pos hq]
      simp only [List.map_cons, List.nodup_cons]
      exact ⟨hq ▸ h.1, h.2⟩
    · rw [if_neg hq]
      simp only [List.map_cons, List.nodup_cons]
      refine ⟨fun hmem => ?_, ih h.2⟩
      rcases keys_mapSet_subset hmem with h' | h'
      · exact h.1 h'
      · exact hq h'

lemma mapGet_mapSet_self (m : List (String × LeaderboardEntry)) (k : String)
    (v : LeaderboardEntry) : mapGet (mapSet m k v) k = some v := by
  induction m with
  | nil => simp [mapGet, mapSet]
  | cons q rest ih =>
    simp only [mapSet]
    by_cases hq : q.1 = k
    · rw [if_pos hq]
      simp [mapGet]
    · rw [if_neg hq]
      simpa [mapGet, List.find?_cons, hq] using ih

lemma mapGet_mapSet_other {m : List (String × LeaderboardEntry)} {k k' : String}
    {v : LeaderboardEntry} (h : k' ≠ k) :
    mapGet (mapSet m k v) k' = mapGet m k' := by
  induction m with
  | nil =>
    have hk' : ¬ (k = k') := fun e => h e.symm
    simp [mapGet, mapSet, hk']
  | cons q rest ih =>
    simp only [mapSet]
    by_cases hq : q.1 = k
    · rw [if_pos hq]
      have hk' : ¬ (k = k') := fun e => h e.symm
      have hq' : ¬ (q.1 = k') := by
        rw [hq]
        exact hk'
      simp [mapGet, List.find?_cons, hk', hq']
    · rw [if_neg hq]
      by_cases hq' : q.1 = k'
      · simp [mapGet, List.find?_cons, hq']
      · simpa [mapGet, List.find?_cons, hq'] using ih

lemma mapGet_eq_some_of_mem {m : List (String × LeaderboardEntry)}
    {k : String} {v : LeaderboardEntry}
    (hnd : (m.map Prod.fst).Nodup) (h : (k, v) ∈ m) :
    mapGet m k = some v := by
  induction m with
  | nil => cases h
  | cons q rest ih =>
    simp only [List.map_cons, List.nodup_cons] at hnd
    rcases List.mem_cons.mp h with h | h
    · have : q.1 = k := by rw [← h]
      simp [mapGet, List.find?_cons, this, ← h]
    · have hq : ¬ (q.1 = k) := by
        intro e
        exact hnd.1 (List.mem_map.mpr ⟨(k, v), h, e.symm ▸ rfl⟩)
      simpa [mapGet, List.find?_cons, hq] using ih hnd.2 h

lemma nodup_keys_dedupStep {m : List (String × LeaderboardEntry)}
    {e : LeaderboardEntry} (h : (m.map Prod.fst).Nodup) :
    ((dedupStep m e).map Prod.fst).Nodup := by
  unfold dedupStep
  cases mapGet m e.user_id with
  | none => exact nodup_keys_mapSet h
  | some ex =>
    by_cases hlt : ex.completed_at < e.completed_at
    · simpa [hlt] using nodup_keys_mapSet h
    · simpa [hlt] using h

lemma mem_dedupStep {m : List (String × LeaderboardEntry)}
    {e : LeaderboardEntry} {p : String × LeaderboardEntry}
    (h : p ∈ dedupStep m e) : p = (e.user_id, e) ∨ p ∈ m := by
  unfold dedupStep at h
  cases hg : mapGet m e.user_id with
  | none =>
    rw [hg] at h
    exact mem_mapSet h
  | some ex =>
    rw [hg] at h
    dsimp only at h
    by_cases hlt : ex.completed_at < e.completed_at
    · rw [if_pos hlt] at h
      exact mem_mapSet h
    · rw [if_neg hlt] at h
      exact Or.inr h

lemma mapGet_dedupStep_other {m : List (String × LeaderboardEntry)}
    {e : LeaderboardEntry} {k : String} (h : k ≠ e.user_id) :
    mapGet (dedupStep m e) k = mapGet m k := by
  unfold dedupStep
  cases mapGet m e.user_id with
  | none => exact mapGet_mapSet_other h
  | some ex =>
    by_cases hlt : ex.completed_at < e.completed_at
    · simpa [hlt] using mapGet_mapSet_other (m := m) (v := e) h
    · simp [hlt]

lemma mapGet_dedupStep_self (m : List (String × LeaderboardEntry))
    (e : LeaderboardEntry) :
    ∃ w, mapGet (dedupStep m e) e.user_id = some w ∧
      e.completed_at ≤ w.completed_at := by
  unfold dedupStep
  cases hg : mapGet m e.user_id with
  | none => exact ⟨e, mapGet_mapSet_self m e.user_id e, le_refl _⟩
  | some ex =>
    dsimp only
    by_cases hlt : ex.completed_at < e.completed_at
    · rw [if_pos hlt]
      exact ⟨e, mapGet_mapSet_self m e.user_id e, le_refl _⟩
    · rw [if_neg hlt]
      exact ⟨ex, hg, by omega⟩

lemma mapGet_dedupStep_mono {m : List (String × LeaderboardEntry)}
    {e : LeaderboardEntry} {k : String} {v : LeaderboardEntry}
    (h : mapGet m k = some v) :
    ∃ w, mapGet (dedupStep m e) k = some w ∧
      v.completed_at ≤ w.completed_at := by
  by_cases hk : k = e.user_id
  · subst hk
    unfold dedupStep
    rw [h]
    dsimp only
    by_cases hlt : v.completed_at < e.completed_at
    · rw [if_pos hlt]
      exact ⟨e, mapGet_mapSet_self m e.user_id e, by omega⟩
    · rw [if_neg hlt]
      exact ⟨v, h, le_refl _⟩
  · exact ⟨v, (mapGet_dedupStep_other hk).trans h, le_refl _⟩

lemma nodup_keys_foldl_dedupStep (l : List LeaderboardEntry)
    (m : List (String × LeaderboardEntry)) (h : (m.map Prod.fst).Nodup) :
    ((l.foldl dedupStep m).map Prod.fst).Nodup := by
  induction l generalizing m with
  | nil => exact h
  | cons e rest ih => exact ih (dedupStep m e) (nodup_keys_dedupStep h)

lemma mem_foldl_dedupStep {l : List LeaderboardEntry}
    {m : List (String × LeaderboardEntry)} {p : String × LeaderboardEntry}
    (h : p ∈ l.foldl dedupStep m) :
    p ∈ m ∨ ∃ e ∈ l, p = (e.user_id, e) := by
  induction l generalizing m with
  | nil => exact Or.inl h
  | cons e rest ih =>
    rcases ih (m := dedupStep m e) h with h' | h'
    · rcases mem_dedupStep h' with h'' | h''
      · exact Or.inr ⟨e, List.mem_cons_self e rest, h''⟩
      · exact Or.inl h''
    · rcases h' with ⟨e', he', hp⟩
      exact Or.inr ⟨e', List.mem_cons_of_mem e he', hp⟩

lemma mapGet_foldl_dedupStep_mono {l : List LeaderboardEntry}
    {m : List (String × LeaderboardEntry)} {k : String} {v : LeaderboardEntry}
    (h : mapGet m k = some v) :
    ∃ w, mapGet (l.foldl dedupStep m) k = some w ∧
      v.completed_at ≤ w.completed_at := by
  induction l generalizing m v with
  | nil => exact ⟨v, h, le_refl _⟩
  | cons e rest ih =>
    obtain ⟨w, hw, hle⟩ := mapGet_dedupStep_mono (e := e) h
    obtain ⟨w', hw', hle'⟩ := ih hw
    exact ⟨w', hw', by omega⟩

lemma mapGet_foldl_dedupStep_max {l : List LeaderboardEntry}
    {m : List (String × LeaderboardEntry)} {v : LeaderboardEntry}
    {e' : LeaderboardEntry} (he' : e' ∈ l)
    (h : mapGet (l.foldl dedupStep m) e'.user_id = some v) :
    e'.completed_at ≤ v.completed_at := by
  induction l generalizing m with
  | nil => cases he'
  | cons e rest ih =>
    rw [List.foldl_cons] at h
    rcases List.mem_cons.mp he' with h' | h'
    · subst h'
      obtain ⟨w, hw, hle⟩ := mapGet_dedupStep_self m e'
      obtain ⟨w', hw', hle'⟩ := mapGet_foldl_dedupStep_mono (l := rest) hw
      rw [h] at hw'
      cases hw'
      omega
    · exact ih h' h

lemma userLatestScores_key_eq {l : List LeaderboardEntry}
    {p : String × LeaderboardEntry} (h : p ∈ userLatestScores l) :
    p = (p.2.user_id, p.2) ∧ p.2 ∈ l := by
  rcases mem_foldl_dedupStep (m := []) h with h' | h'
  · cases h'
  · rcases h' with ⟨e, he, hp⟩
    rw [hp]
    exact ⟨rfl, he⟩

lemma userLatestScores_nodup_users (l : List LeaderboardEntry) :
    (((userLatestScores l).map Prod.snd).Pairwise
      (fun a b => a.user_id ≠ b.user_id)) := by
  have hnd : ((userLatestScores l).map Prod.fst).Nodup :=
    nodup_keys_foldl_dedupStep l [] (by simp)
  have hpair : (userLatestScores l).Pairwise (fun p q => p.1 ≠ q.1) :=
    List.pairwise_map.mp hnd
  rw [List.pairwise_map]
  refine hpair.imp_of_mem ?_
  intro p q hp hq hne e
  have kp : p.1 = p.2.user_id := congrArg Prod.fst (userLatestScores_key_eq hp).1
  have kq : q.1 = q.2.user_id := congrArg Prod.fst (userLatestScores_key_eq hq).1
  exact hne (by rw [kp, kq, e])

lemma userLatestScores_max {l : List LeaderboardEntry}
    {p : String × LeaderboardEntry} (hp : p ∈ userLatestScores l)
    {e' : LeaderboardEntry} (he' : e' ∈ l)
    (hu : e'.user_id = p.2.user_id) :
    e'.completed_at ≤ p.2.completed_at := by
  have hnd : ((userLatestScores l).map Prod.fst).Nodup :=
    nodup_keys_foldl_dedupStep l [] (by simp)
  obtain ⟨hkey, _⟩ := userLatestScores_key_eq hp
  have hget : mapGet (userLatestScores l) p.2.user_id = some p.2 :=
    mapGet_eq_some_of_mem hnd (hkey ▸ hp)
  exact mapGet_foldl_dedupStep_max he' (by rw [hu]; exact hget)

lemma lbBefore_score {a b : LeaderboardEntry} (h : lbBefore a b) :
    b.score_percentage ≤ a.score_percentage := by
  unfold lbBefore at h
  by_cases hc : b.score_percentage = a.score_percentage
  · exact le_of_eq hc
  · rw [if_pos hc] at h
    linarith

lemma lbBefore_cases {a b : LeaderboardEntry} (h : lbBefore a b) :
    b.score_percentage < a.score_percentage ∨
      (b.score_percentage = a.score_percentage ∧
        a.completed_at ≤ b.completed_at) := by
  unfold lbBefore at h
  by_cases hc : b.score_percentage = a.score_percentage
  · rw [if_neg (not_ne_iff.mpr hc)] at h
    exact Or.inr ⟨hc, by omega⟩
  · rw [if_pos hc] at h
    exact Or.inl (lt_of_le_of_ne (by linarith) hc)

/-- The leaderboard entry of score 90 completed at time 1, for the
claim C3 scenario. -/
def demoU1a : LeaderboardEntry := ⟨"u1", "P", 90, 10, 9, 10, 1⟩

/-- The later entry of the same user, score 95 completed at time 2. -/
def demoU1b : LeaderboardEntry := ⟨"u1", "P", 95, 20, 19, 20, 2⟩

/-- The second user's entry, score 95 completed at time 3. -/
def demoU2 : LeaderboardEntry := ⟨"u2", "P", 95, 20, 19, 20, 3⟩

/-- The entry list of the claim C3 scenario. -/
def demoEntries : List LeaderboardEntry := [demoU1a, demoU1b, demoU2]

/-- Claim C7: the leaderboard view never holds two entries of one
user, has at most 20 rows and is non-increasing in score
percentage. -/
theorem fetchLeaderboard_invariants (entries : List LeaderboardEntry)
    (paperName : String) :
    (fetchLeaderboard entries paperName).Pairwise
      (fun a b => a.user_id ≠ b.user_id) ∧
    (fetchLeaderboard entries paperName).length ≤ 20 ∧
    (fetchLeaderboard entries paperName).Pairwise
      (fun a b => b.score_percentage ≤ a.score_percentage) := by
  unfold fetchLeaderboard
  refine ⟨?_, List.length_take_le _ _, ?_⟩
  · have h0 := userLatestScores_nodup_users
      (List.insertionSort completedDesc
        (entries.filter (fun e => decide (e.paper_name = paperName))))
    have h1 := (List.perm_insertionSort lbBefore _).pairwise_iff
      (fun hxy => Ne.symm hxy) |>.mpr h0
    exact h1.sublist (List.take_sublist _ _)
  · exact ((List.sorted_insertionSort lbBefore _).imp
      (fun hab => lbBefore_score hab)).sublist (List.take_sublist _ _)

/-- Witness for C7 at the scenario entries. -/
theorem fetchLeaderboard_invariants_witness :
    (fetchLeaderboard demoEntries "P").Pairwise
      (fun a b => a.user_id ≠ b.user_id) :=
  (fetchLeaderboard_invariants demoEntries "P").1

/-- Claim C3: every row of the leaderboard view is one of the input
entries for the requested paper and carries the latest completed_at of
its user among those entries; the view is ordered by score descending
with ties broken by earlier completion; it has at most 20 rows; and on
the scenario input (u1 90 at t1, u1 95 at t2, u2 95 at t3) it is
exactly (u1 95 at t2, u2 95 at t3). -/
theorem fetchLeaderboard_rank_spec (entries : List LeaderboardEntry)
    (paperName : String) :
    (∀ e ∈ fetchLeaderboard entries paperName,
        e ∈ entries ∧ e.paper_name = paperName ∧
        ∀ e' ∈ entries, e'.paper_name = paperName →
          e'.user_id = e.user_id → e'.completed_at ≤ e.completed_at) ∧
    (fetchLeaderboard entries paperName).Pairwise
      (fun a b => b.score_percentage < a.score_percentage ∨
        (b.score_percentage = a.score_percentage ∧
          a.completed_at ≤ b.completed_at)) ∧
    (fetchLeaderboard entries paperName).length ≤ 20 ∧
    fetchLeaderboard demoEntries "P" = [demoU1b, demoU2] := by
  refine ⟨?_, ?_, List.length_take_le _ _, by decide⟩
  · intro e he
    unfold fetchLeaderboard at he
    have he1 := (List.mem_insertionSort lbBefore).mp (List.mem_of_mem_take he)
    obtain ⟨p, hp, hpe⟩ := List.mem_map.mp he1
    obtain ⟨hkey, hmemf⟩ := userLatestScores_key_eq hp
    have hmemfil := (List.mem_insertionSort completedDesc).mp hmemf
    have hfil := List.mem_filter.mp hmemfil
    have hpaper : p.2.paper_name = paperName := of_decide_eq_true hfil.2
    refine ⟨hpe ▸ hfil.1, hpe ▸ hpaper, ?_⟩
    intro e' he' hpap' huid'
    have he'fil : e' ∈ entries.filter
        (fun x => decide (x.paper_name = paperName)) :=
      List.mem_filter.mpr ⟨he', decide_eq_true hpap'⟩
    have he'fetched := (List.mem_insertionSort completedDesc).mpr he'fil
    have := userLatestScores_max hp he'fetched (by rw [huid', ← hpe])
    rw [← hpe]
    exact this
  · unfold fetchLeaderboard
    exact ((List.sorted_insertionSort lbBefore _).imp
      (fun hab => lbBefore_cases hab)).sublist (List.take_sublist _ _)

/-- Witness for C3: in the scenario output, the retained u1 row
dominates u1's earlier attempt. -/
theorem fetchLeaderboard_rank_spec_witness :
    demoU1a.completed_at ≤ demoU1b.completed_at :=
  (((fetchLeaderboard_rank_spec demoEntries "P").1 demoU1b
      (by decide)).2.2) demoU1a (by decide) (by decide) (by decide)

end Disaquiz
